import Mathlib

/-!
Verification development for the Intelligent Document Processor repository.

Python strings are modelled as `List Char` (or `String` where only whole-string
operations occur), floats as `ℚ` (exact rationals) except where a square root
forces `ℝ`, wall-clock instants as `ℤ` seconds, and fallible collaborator calls
(LLM summarization, embedding generation, PDF extraction) as explicit function
parameters returning `Option` values.  Each definition is a direct translation
of the correspondingly named Python function.
-/

/-- Python whitespace (the `\s` class and `str.strip` set, ASCII range):
space, tab, newline, carriage return, vertical tab, form feed. -/
def pyWs (c : Char) : Bool :=
  c == ' ' || c == '\t' || c == '\n' || c == '\r' || c == Char.ofNat 11 || c == Char.ofNat 12

/-- Python `s.strip()` on a character list. -/
def pyStrip (s : List Char) : List Char :=
  ((s.dropWhile pyWs).reverse.dropWhile pyWs).reverse

/-- Python `s.strip()` on a `String`. -/
def pyStripStr (s : String) : String :=
  ⟨pyStrip s.toList⟩

/-- Delete every whitespace character.  Two strings are equal "up to whitespace
normalization" exactly when `removeWs` maps them to the same string. -/
def removeWs (s : List Char) : List Char :=
  s.filter (fun c => !pyWs c)

theorem removeWs_append (a b : List Char) :
    removeWs (a ++ b) = removeWs a ++ removeWs b :=
  List.filter_append a b

theorem removeWs_reverse (s : List Char) :
    removeWs s.reverse = (removeWs s).reverse := by
  simp [removeWs, List.filter_reverse]

theorem removeWs_dropWhile_pyWs (s : List Char) :
    removeWs (s.dropWhile pyWs) = removeWs s := by
  induction s with
  | nil => rfl
  | cons c t ih =>
    by_cases h : pyWs c
    · simpa [removeWs, List.dropWhile, h] using ih
    · simp [removeWs, List.dropWhile, h]

theorem removeWs_pyStrip (s : List Char) : removeWs (pyStrip s) = removeWs s := by
  unfold pyStrip
  rw [removeWs_reverse, removeWs_dropWhile_pyWs, removeWs_reverse,
    List.reverse_reverse, removeWs_dropWhile_pyWs]

/-! ## Chunk cache (`document_processor.py`)

`DocumentProcessor._save_cache` pickles `{"timestamp": ..., "chunks": ...}` to a
file named after the SHA-256 of the raw bytes; `_load_cache` unpickles it and
copes with several shapes; `_is_cache_valid` compares the file's modification
time against `cache_expire_days`.  The pickled value is modelled by `CacheData`
(`corrupt` stands for an unreadable or unpicklable file, whose load raises and
is caught), and a cache file by `CacheEntry` carrying its modification time as
`ℤ` epoch seconds. -/

/-- The possible shapes of an unpickled cache value, plus `corrupt` for an entry
whose read or unpickling raises. -/
inductive CacheData where
  | corrupt : CacheData
  | dictVal (chunks : Option (List String)) : CacheData
  | listVal (chunks : List String) : CacheData
  | otherVal : CacheData
deriving DecidableEq

/-- A cache file: modification time (epoch seconds) and stored value. -/
structure CacheEntry where
  mtime : ℤ
  data : CacheData
deriving DecidableEq

/-- `DocumentProcessor._load_cache`: returns `data["chunks"]` for a dict (default
`[]`), the list itself for a list, `[]` for any other shape, and `[]` when the
read or unpickling raises. -/
def loadCache : CacheData → List String
  | .corrupt => []
  | .dictVal (some cs) => cs
  | .dictVal none => []
  | .listVal cs => cs
  | .otherVal => []

/-- `DocumentProcessor._save_cache`: writes a dict with a timestamp and the
chunks; the file's modification time becomes the write instant. -/
def saveCache (chunks : List String) (now : ℤ) : CacheEntry :=
  ⟨now, .dictVal (some chunks)⟩

/-- `DocumentProcessor._is_cache_valid`: the entry exists and
`now - mtime < expire_days` (a strict comparison of a `timedelta` against
`timedelta(days=expire_days)`, here in seconds). -/
def isCacheValid (cache : Option CacheEntry) (now : ℤ) (expireDays : ℕ) : Bool :=
  match cache with
  | none => false
  | some e => now - e.mtime < (expireDays : ℤ) * 86400

/-- The cache read path of `_process_single_file` (validity test then load):
`some` on a valid entry, `none` (miss) otherwise. -/
def cacheGet (cache : Option CacheEntry) (now : ℤ) (expireDays : ℕ) :
    Option (List String) :=
  if isCacheValid cache now expireDays then
    some (loadCache ((cache.getD ⟨0, .otherVal⟩).data))
  else none

/-- Python `text.split("\n\n")`: leftmost, non-overlapping split on the
two-newline separator. -/
def splitTwoNl : List Char → List (List Char)
  | '\n' :: '\n' :: rest => [] :: splitTwoNl rest
  | c :: rest =>
    match splitTwoNl rest with
    | [] => [[c]]
    | h :: t => (c :: h) :: t
  | [] => [[]]

/-- The paragraph chunking of `_process_single_file`:
`[chunk.strip() for chunk in text.split("\n\n") if chunk.strip()]`. -/
def chunkParagraphs (text : String) : List String :=
  (((splitTwoNl text.toList).map pyStrip).filter (fun c => c ≠ [])).map
    (fun l => ⟨l⟩)

/-- `DocumentProcessor._process_single_file`, after file reading and hashing:
on a valid cache entry return its load, otherwise extract text (the extraction
collaborators are summarized by the `extractedText` argument, exactly as the
spec treats extraction as external), chunk it by paragraphs and cache it. -/
def processSingleFile (extractedText : String) (cache : Option CacheEntry)
    (now : ℤ) (expireDays : ℕ) : List String :=
  match cache with
  | some e =>
    if isCacheValid (some e) now expireDays then loadCache e.data
    else chunkParagraphs extractedText
  | none => chunkParagraphs extractedText

/-! ## Segmenter (`large_document_processor.py`)

`_chunk_by_text` splits text on the regex `\n\s*\n` (a newline, optional
whitespace, a newline — matched greedily and leftmost, exactly `re.split`'s
behaviour) and folds the paragraphs into size-bounded chunks. -/

/-- Greedy match of `\n\s*\n` at the head of `s`: `some (sep, rest)` when `s`
starts with a newline and the maximal whitespace run after it contains another
newline; the separator extends to the last newline of that run (the greedy
`\s*` with a reserved final `\n`). -/
def sepHead (s : List Char) : Option (List Char × List Char) :=
  match s with
  | [] => none
  | c :: rest =>
    if c = '\n' then
      let w := rest.takeWhile pyWs
      let k := (w.reverse.dropWhile (fun d => !(d == '\n'))).length
      if k = 0 then none else some ('\n' :: w.take k, rest.drop k)
    else none

/-- Leftmost match of `\n\s*\n` in `s`: `some (before, sep, after)`. -/
def findSep : List Char → Option (List Char × List Char × List Char)
  | [] => none
  | c :: rest =>
    match sepHead (c :: rest) with
    | some (sep, after) => some ([], sep, after)
    | none =>
      match findSep rest with
      | some (pre, sep, after) => some (c :: pre, sep, after)
      | none => none

theorem take_takeWhile_eq_take (p : Char → Bool) (l : List Char) (k : ℕ)
    (hk : k ≤ (l.takeWhile p).length) : (l.takeWhile p).take k = l.take k := by
  induction l generalizing k with
  | nil => simp [List.takeWhile]
  | cons c t ih =>
    by_cases h : p c
    · cases k with
      | zero => simp
      | succ k =>
        simp only [List.takeWhile, h, List.take, List.take_succ_cons]
        simp only [List.takeWhile, h, List.length_cons, Nat.succ_le_succ_iff] at hk
        rw [ih k hk]
    · simp [List.takeWhile, h] at hk
      simp [hk]

theorem mem_take_takeWhile (p : Char → Bool) (l : List Char) (k : ℕ) (c : Char)
    (hc : c ∈ (l.takeWhile p).take k) : p c := by
  have h1 : c ∈ l.takeWhile p := List.mem_of_mem_take hc
  exact List.mem_takeWhile_imp h1

/-- Specification of `sepHead`: a match decomposes the input, is nonempty, and
consists of whitespace only. -/
theorem sepHead_spec (s : List Char) (sep rest : List Char)
    (h : sepHead s = some (sep, rest)) :
    s = sep ++ rest ∧ sep ≠ [] ∧ ∀ c ∈ sep, pyWs c := by
  match s with
  | [] => simp [sepHead] at h
  | c :: t =>
    by_cases hc : c = '\n'
    · subst hc
      simp only [sepHead, if_pos rfl] at h
      set w := t.takeWhile pyWs with hw
      set k := (w.reverse.dropWhile (fun d => !(d == '\n'))).length with hk
      by_cases hk0 : k = 0
      · simp [hk0] at h
      · rw [if_neg hk0] at h
        injection h with h
        have hsep : sep = '\n' :: w.take k := (Prod.ext_iff.mp h).1.symm
        have hrest : rest = t.drop k := (Prod.ext_iff.mp h).2.symm
        have hkw : k ≤ w.length := by
          have h1 := (List.dropWhile_sublist (l := w.reverse)
            (fun d => !(d == '\n'))).length_le
          calc k ≤ w.reverse.length := by rw [hk]; exact h1
            _ = w.length := List.length_reverse w
        have htake : w.take k = t.take k := by
          apply take_takeWhile_eq_take pyWs t k
          rw [← hw]; exact hkw
        refine ⟨?_, ?_, ?_⟩
        · rw [hsep, hrest, htake]
          simp [List.take_append_drop]
        · rw [hsep]; simp
        · intro x hx
          rw [hsep] at hx
          rcases List.mem_cons.mp hx with h | h
          · subst h; rfl
          · refine mem_take_takeWhile pyWs t k x ?_
            rw [← hw]; exact h
    · simp [sepHead, hc] at h

/-- Specification of `findSep`. -/
theorem findSep_spec (s pre sep after : List Char)
    (h : findSep s = some (pre, sep, after)) :
    s = pre ++ sep ++ after ∧ sep ≠ [] ∧ ∀ c ∈ sep, pyWs c := by
  induction s generalizing pre with
  | nil => simp [findSep] at h
  | cons c t ih =>
    simp only [findSep] at h
    match hsh : sepHead (c :: t) with
    | some (sp, af) =>
      rw [hsh] at h
      obtain ⟨hpre, hsep, haf⟩ : pre = [] ∧ sep = sp ∧ after = af := by
        simpa [Prod.ext_iff] using h.symm
      subst hpre hsep haf
      obtain ⟨h1, h2, h3⟩ := sepHead_spec _ _ _ hsh
      exact ⟨by simpa using h1, h2, h3⟩
    | none =>
      rw [hsh] at h
      match hft : findSep t with
      | some (p2, s2, a2) =>
        rw [hft] at h
        obtain ⟨hpre, hsep, haf⟩ : pre = c :: p2 ∧ sep = s2 ∧ after = a2 := by
          simpa [Prod.ext_iff] using h.symm
        subst hpre hsep haf
        obtain ⟨h1, h2, h3⟩ := ih p2 hft
        exact ⟨by simp [h1], h2, h3⟩
      | none => rw [hft] at h; exact absurd h (by simp)

theorem findSep_after_lt (s pre sep after : List Char)
    (h : findSep s = some (pre, sep, after)) : after.length < s.length := by
  obtain ⟨h1, h2, -⟩ := findSep_spec s pre sep after h
  have hs : s.length = pre.length + sep.length + after.length := by
    rw [h1, List.length_append, List.length_append]
  have hsep : 0 < sep.length := List.length_pos.mpr h2
  omega

/-- Fuel-driven worker for `splitParas` (structural recursion so that concrete
inputs reduce inside the kernel; `splitParas` supplies adequate fuel). -/
def splitParasF : ℕ → List Char → List (List Char)
  | 0, s => [s]
  | fuel + 1, s =>
    match findSep s with
    | none => [s]
    | some (pre, _, after) => pre :: splitParasF fuel after

/-- `re.split(r'\n\s*\n', text)`: the paragraph list of `_chunk_by_text`.
Each separator is at least two characters, so `s.length` is enough fuel. -/
def splitParas (s : List Char) : List (List Char) :=
  splitParasF s.length s

theorem findSep_nil : findSep [] = none := rfl

theorem splitParasF_congr (fuel1 : ℕ) :
    ∀ (fuel2 : ℕ) (s : List Char), s.length ≤ fuel1 → s.length ≤ fuel2 →
      splitParasF fuel1 s = splitParasF fuel2 s := by
  induction fuel1 with
  | zero =>
    intro fuel2 s h1 _
    have hs : s = [] := List.eq_nil_of_length_eq_zero (Nat.le_zero.mp h1)
    subst hs
    cases fuel2 with
    | zero => rfl
    | succ f2 => simp [splitParasF, findSep_nil]
  | succ f1 ih =>
    intro fuel2 s h1 h2
    cases fuel2 with
    | zero =>
      have hs : s = [] := List.eq_nil_of_length_eq_zero (Nat.le_zero.mp h2)
      subst hs
      simp [splitParasF, findSep_nil]
    | succ f2 =>
      simp only [splitParasF]
      match hfs : findSep s with
      | none => rfl
      | some (pre, sep, after) =>
        have hlt := findSep_after_lt s pre sep after hfs
        have e1 : after.length ≤ f1 := by omega
        have e2 : after.length ≤ f2 := by omega
        show pre :: splitParasF f1 after = pre :: splitParasF f2 after
        rw [ih f2 after e1 e2]

theorem splitParas_of_none (s : List Char) (h : findSep s = none) :
    splitParas s = [s] := by
  unfold splitParas
  cases hl : s.length with
  | zero => rfl
  | succ m => simp [splitParasF, h]

theorem splitParas_of_some (s pre sep after : List Char)
    (h : findSep s = some (pre, sep, after)) :
    splitParas s = pre :: splitParas after := by
  have hlt := findSep_after_lt s pre sep after h
  unfold splitParas
  cases hl : s.length with
  | zero =>
    rw [hl] at hlt
    omega
  | succ m =>
    simp only [splitParasF, h]
    rw [splitParasF_congr m after.length after (by omega) (le_refl _)]

/-- Splitting loses no non-whitespace character: the separators are whitespace. -/
theorem removeWs_flatten_splitParas (s : List Char) :
    removeWs (splitParas s).flatten = removeWs s := by
  match h : findSep s with
  | none => rw [splitParas_of_none s h]; simp
  | some (pre, sep, after) =>
    have hlt : after.length < s.length := findSep_after_lt s pre sep after h
    obtain ⟨h1, -, h3⟩ := findSep_spec s pre sep after h
    have hsep : removeWs sep = [] := by
      simp only [removeWs, List.filter_eq_nil_iff]
      intro c hc; simpa using h3 c hc
    have ih := removeWs_flatten_splitParas after
    rw [splitParas_of_some s pre sep after h]
    simp only [List.flatten_cons]
    rw [removeWs_append, ih, h1, removeWs_append, removeWs_append, hsep,
      List.append_nil]
termination_by s.length

/-- A chunk record as produced by `LargeDocumentProcessor`: the `content` string
and the metadata fields the claims are about (`chunk_type`, `page_range`,
`chunk_index`, and `text_length` which only text segments carry). -/
structure PyChunk where
  content : List Char
  chunkType : String
  pageRange : String
  chunkIndex : ℕ
  textLength : Option ℕ
deriving DecidableEq

/-- State of the paragraph fold in `_chunk_by_text`: accumulated chunks, the
running buffer (`current_chunk`), and the next chunk index. -/
structure ChunkState where
  chunks : List PyChunk
  cur : List Char
  idx : ℕ

/-- One loop iteration of `_chunk_by_text`.  When appending the paragraph would
exceed `max_chunk_size` and the buffer is nonempty, the buffer is closed (saved
only if its length is at least `min_chunk_size`) and a new buffer starts with
the trailing `overlap_size` characters plus `"\n\n"` plus the paragraph;
otherwise the paragraph is appended (with `"\n\n"`, or bare into an empty
buffer). -/
def chunkStep (maxChunkSize overlapSize minChunkSize : ℕ) (pageRange : String)
    (st : ChunkState) (para : List Char) : ChunkState :=
  if maxChunkSize < st.cur.length + para.length ∧ st.cur ≠ [] then
    let saved := minChunkSize ≤ st.cur.length
    let chunks := if saved then
        st.chunks ++ [⟨pyStrip st.cur, "text_segment", pageRange, st.idx,
          some st.cur.length⟩]
      else st.chunks
    let idx := if saved then st.idx + 1 else st.idx
    let ov := if 0 < overlapSize then st.cur.drop (st.cur.length - overlapSize)
      else []
    ⟨chunks, ov ++ '\n' :: '\n' :: para, idx⟩
  else
    ⟨st.chunks, if st.cur = [] then para else st.cur ++ '\n' :: '\n' :: para,
      st.idx⟩

/-- The trailing append of `_chunk_by_text`: the last buffer is emitted when its
strip is nonempty and its length is at least `min_chunk_size`. -/
def chunkFinal (minChunkSize : ℕ) (pageRange : String) (st : ChunkState) :
    List PyChunk :=
  if pyStrip st.cur ≠ [] ∧ minChunkSize ≤ st.cur.length then
    st.chunks ++ [⟨pyStrip st.cur, "text_segment", pageRange, st.idx,
      some st.cur.length⟩]
  else st.chunks

/-- `LargeDocumentProcessor._chunk_by_text`: split on blank lines, fold the
paragraphs, emit the trailing buffer. -/
def chunkByText (maxChunkSize overlapSize minChunkSize : ℕ) (text : List Char)
    (pageRange : String) : List PyChunk :=
  chunkFinal minChunkSize pageRange
    ((splitParas text).foldl (chunkStep maxChunkSize overlapSize minChunkSize
      pageRange) ⟨[], [], 0⟩)

/-- State of the seed-tracking variant of the fold: like `ChunkState` but each
saved chunk is paired with the overlap seed that was inserted at the start of
its buffer, and `curSeed` is the seed of the running buffer (`[]` for the first
buffer). -/
structure ChunkStateAug where
  items : List (PyChunk × List Char)
  cur : List Char
  curSeed : List Char
  idx : ℕ

/-- Seed-tracking variant of `chunkStep`: identical chunk bookkeeping, plus the
overlap seed of each buffer is recorded alongside the chunk it closes into. -/
def chunkStepAug (maxChunkSize overlapSize minChunkSize : ℕ) (pageRange : String)
    (st : ChunkStateAug) (para : List Char) : ChunkStateAug :=
  if maxChunkSize < st.cur.length + para.length ∧ st.cur ≠ [] then
    let saved := minChunkSize ≤ st.cur.length
    let items := if saved then
        st.items ++ [(⟨pyStrip st.cur, "text_segment", pageRange, st.idx,
          some st.cur.length⟩, st.curSeed)]
      else st.items
    let idx := if saved then st.idx + 1 else st.idx
    let ov := if 0 < overlapSize then st.cur.drop (st.cur.length - overlapSize)
      else []
    ⟨items, ov ++ '\n' :: '\n' :: para, ov, idx⟩
  else
    ⟨st.items, if st.cur = [] then para else st.cur ++ '\n' :: '\n' :: para,
      st.curSeed, st.idx⟩

/-- Seed-tracking variant of `chunkFinal`. -/
def chunkFinalAug (minChunkSize : ℕ) (pageRange : String) (st : ChunkStateAug) :
    List (PyChunk × List Char) :=
  if pyStrip st.cur ≠ [] ∧ minChunkSize ≤ st.cur.length then
    st.items ++ [(⟨pyStrip st.cur, "text_segment", pageRange, st.idx,
      some st.cur.length⟩, st.curSeed)]
  else st.items

/-- `_chunk_by_text` with each emitted chunk paired with its inserted overlap
seed. -/
def chunkByTextAug (maxChunkSize overlapSize minChunkSize : ℕ) (text : List Char)
    (pageRange : String) : List (PyChunk × List Char) :=
  chunkFinalAug minChunkSize pageRange
    ((splitParas text).foldl (chunkStepAug maxChunkSize overlapSize minChunkSize
      pageRange) ⟨[], [], [], 0⟩)

/-- Content of a chunk after dropping its inserted overlap seed, compared at the
whitespace-normalized level: drop as many characters as the seed's
non-whitespace length from the chunk's non-whitespace content. -/
def seedStripped (p : PyChunk × List Char) : List Char :=
  (removeWs p.1.content).drop (removeWs p.2).length

/-- Forgetting the seeds of the augmented state. -/
def augProj (st : ChunkStateAug) : ChunkState :=
  ⟨st.items.map Prod.fst, st.cur, st.idx⟩

theorem augProj_step (m o mn : ℕ) (pr : String) (st : ChunkStateAug)
    (p : List Char) :
    augProj (chunkStepAug m o mn pr st p) = chunkStep m o mn pr (augProj st) p := by
  unfold chunkStepAug chunkStep augProj
  by_cases h : m < st.cur.length + p.length ∧ st.cur ≠ []
  · by_cases hs : mn ≤ st.cur.length <;> simp [h, hs]
  · simp [h]

theorem augProj_foldl (m o mn : ℕ) (pr : String) (paras : List (List Char))
    (st : ChunkStateAug) :
    augProj (paras.foldl (chunkStepAug m o mn pr) st) =
      paras.foldl (chunkStep m o mn pr) (augProj st) := by
  induction paras generalizing st with
  | nil => rfl
  | cons p t ih => rw [List.foldl_cons, List.foldl_cons, ih, augProj_step]

theorem chunkFinalAug_fst (mn : ℕ) (pr : String) (st : ChunkStateAug) :
    (chunkFinalAug mn pr st).map Prod.fst = chunkFinal mn pr (augProj st) := by
  unfold chunkFinalAug chunkFinal augProj
  by_cases h : pyStrip st.cur ≠ [] ∧ mn ≤ st.cur.length <;> simp [h]

/-- The augmented run projects onto the plain `_chunk_by_text` run. -/
theorem chunkByTextAug_fst (m o mn : ℕ) (text : List Char) (pr : String) :
    (chunkByTextAug m o mn text pr).map Prod.fst = chunkByText m o mn text pr := by
  unfold chunkByTextAug chunkByText
  rw [chunkFinalAug_fst, augProj_foldl]
  rfl

theorem chunkStep_indices (m o mn : ℕ) (pr : String) (st : ChunkState)
    (p : List Char) (h : st.chunks.map PyChunk.chunkIndex = List.range st.idx) :
    (chunkStep m o mn pr st p).chunks.map PyChunk.chunkIndex =
      List.range (chunkStep m o mn pr st p).idx := by
  unfold chunkStep
  by_cases hc : m < st.cur.length + p.length ∧ st.cur ≠ []
  · rw [if_pos hc]
    by_cases hs : mn ≤ st.cur.length
    · simp only [if_pos hs, List.map_append, h, List.range_succ]
      rfl
    · simpa only [if_neg hs] using h
  · rw [if_neg hc]
    exact h

theorem chunkFold_indices (m o mn : ℕ) (pr : String) (paras : List (List Char))
    (st : ChunkState) (h : st.chunks.map PyChunk.chunkIndex = List.range st.idx) :
    (paras.foldl (chunkStep m o mn pr) st).chunks.map PyChunk.chunkIndex =
      List.range (paras.foldl (chunkStep m o mn pr) st).idx := by
  induction paras generalizing st with
  | nil => exact h
  | cons p t ih =>
    rw [List.foldl_cons]
    exact ih _ (chunkStep_indices m o mn pr st p h)

theorem removeWs_double_nl (p : List Char) :
    removeWs ('\n' :: '\n' :: p) = removeWs p := by
  have h : pyWs '\n' = true := by decide
  simp [removeWs, List.filter_cons, h]

theorem drop_append_of_le_len {α : Type} (x y : List α) (n : ℕ)
    (h : n ≤ x.length) : (x ++ y).drop n = x.drop n ++ y := by
  rw [List.drop_append_eq_append_drop, Nat.sub_eq_zero_of_le h, List.drop_zero]

/-- Invariant of the seed-tracking fold: the seed-stripped contents emitted so
far plus the seed-stripped running buffer hold exactly the non-whitespace
characters consumed so far; the seed is never longer (in non-whitespace
characters) than its buffer; an empty buffer has an empty seed. -/
def augInv (st : ChunkStateAug) (acc : List Char) : Prop :=
  (st.items.map seedStripped).flatten ++
      (removeWs st.cur).drop (removeWs st.curSeed).length = removeWs acc
  ∧ (removeWs st.curSeed).length ≤ (removeWs st.cur).length
  ∧ (st.cur = [] → st.curSeed = [])

theorem augInv_step (m o : ℕ) (pr : String) (st : ChunkStateAug)
    (p acc : List Char) (h : augInv st acc) :
    augInv (chunkStepAug m o 0 pr st p) (acc ++ p) := by
  obtain ⟨h1, h2, h3⟩ := h
  unfold chunkStepAug
  by_cases hc : m < st.cur.length + p.length ∧ st.cur ≠ []
  · rw [if_pos hc]
    simp only [Nat.zero_le, if_pos]
    set ov := if 0 < o then st.cur.drop (st.cur.length - o) else [] with hov
    have e2 : removeWs (ov ++ '\n' :: '\n' :: p) = removeWs ov ++ removeWs p := by
      rw [removeWs_append, removeWs_double_nl]
    refine ⟨?_, ?_, ?_⟩
    · show (((st.items ++ [_]).map seedStripped).flatten ++
          (removeWs (ov ++ '\n' :: '\n' :: p)).drop (removeWs ov).length) =
          removeWs (acc ++ p)
      rw [List.map_append, List.flatten_append, e2, List.drop_left]
      have e1 : seedStripped (⟨pyStrip st.cur, "text_segment", pr, st.idx,
          some st.cur.length⟩, st.curSeed) =
          (removeWs st.cur).drop (removeWs st.curSeed).length := by
        unfold seedStripped
        simp only
        rw [removeWs_pyStrip]
      simp only [List.map_cons, List.map_nil, List.flatten_cons,
        List.flatten_nil, List.append_nil, e1]
      rw [List.append_assoc, removeWs_append] at *
      rw [← List.append_assoc, h1]
    · show (removeWs ov).length ≤ (removeWs (ov ++ '\n' :: '\n' :: p)).length
      rw [e2, List.length_append]
      exact Nat.le_add_right _ _
    · intro hx
      exact absurd (List.append_eq_nil.mp hx).2 (by simp)
  · rw [if_neg hc]
    by_cases hnil : st.cur = []
    · have hseed := h3 hnil
      simp only [hnil, if_pos]
      rw [hnil, hseed] at h1
      simp only [removeWs, List.filter_nil, List.length_nil, List.drop_zero,
        List.append_nil] at h1
      refine ⟨?_, ?_, ?_⟩
      · show ((st.items.map seedStripped).flatten ++
            (removeWs p).drop (removeWs st.curSeed).length) = removeWs (acc ++ p)
        rw [hseed]
        simp only [removeWs, List.filter_nil, List.length_nil, List.drop_zero]
        rw [← removeWs, ← removeWs, removeWs_append, h1]
        rfl
      · rw [hseed]
        simp [removeWs]
      · intro _; exact hseed
    · simp only [hnil, if_neg, reduceIte]
      have e : removeWs (st.cur ++ '\n' :: '\n' :: p) =
          removeWs st.cur ++ removeWs p := by
        rw [removeWs_append, removeWs_double_nl]
      refine ⟨?_, ?_, ?_⟩
      · show ((st.items.map seedStripped).flatten ++
            (removeWs (st.cur ++ '\n' :: '\n' :: p)).drop
              (removeWs st.curSeed).length) = removeWs (acc ++ p)
        rw [e, drop_append_of_le_len _ _ _ h2, ← List.append_assoc, h1,
          removeWs_append]
      · show (removeWs st.curSeed).length ≤
            (removeWs (st.cur ++ '\n' :: '\n' :: p)).length
        rw [e, List.length_append]
        exact h2.trans (Nat.le_add_right _ _)
      · intro hx
        exact absurd (List.append_eq_nil.mp hx).1 hnil

theorem augInv_foldl (m o : ℕ) (pr : String) (paras : List (List Char))
    (st : ChunkStateAug) (acc : List Char) (h : augInv st acc) :
    augInv (paras.foldl (chunkStepAug m o 0 pr) st) (acc ++ paras.flatten) := by
  induction paras generalizing st acc with
  | nil => simpa using h
  | cons p t ih =>
    rw [List.foldl_cons, List.flatten_cons, ← List.append_assoc]
    exact ih _ _ (augInv_step m o pr st p acc h)

theorem augInv_final (pr : String) (st : ChunkStateAug) (acc : List Char)
    (h : augInv st acc) :
    ((chunkFinalAug 0 pr st).map seedStripped).flatten = removeWs acc := by
  obtain ⟨h1, h2, -⟩ := h
  unfold chunkFinalAug
  by_cases hc : pyStrip st.cur ≠ [] ∧ (0:ℕ) ≤ st.cur.length
  · rw [if_pos hc, List.map_append, List.flatten_append]
    have e1 : seedStripped (⟨pyStrip st.cur, "text_segment", pr, st.idx,
        some st.cur.length⟩, st.curSeed) =
        (removeWs st.cur).drop (removeWs st.curSeed).length := by
      unfold seedStripped
      simp only
      rw [removeWs_pyStrip]
    simp only [List.map_cons, List.map_nil, List.flatten_cons, List.flatten_nil,
      List.append_nil, e1]
    exact h1
  · rw [if_neg hc]
    have hstrip : pyStrip st.cur = [] := by
      by_contra hne
      exact hc ⟨hne, Nat.zero_le _⟩
    have hcur : removeWs st.cur = [] := by
      rw [← removeWs_pyStrip, hstrip]
      rfl
    rw [hcur] at h1
    simpa using h1

/-- Fuel-driven worker for `collapseWs` (`l.length` fuel always suffices
because each step consumes at least one character). -/
def collapseWsF : ℕ → List Char → List Char
  | _, [] => []
  | 0, l => l
  | fuel + 1, c :: rest =>
    if pyWs c then ' ' :: collapseWsF fuel (rest.dropWhile pyWs)
    else c :: collapseWsF fuel rest

/-- `re.sub(r'\s+', ' ', text)`: replace each maximal whitespace run by one
space. -/
def collapseWs (l : List Char) : List Char :=
  collapseWsF l.length l

/-- Fuel-driven worker for `squeezeNewlines`. -/
def squeezeNewlinesF : ℕ → List Char → List Char
  | _, [] => []
  | 0, l => l
  | fuel + 1, c :: rest =>
    if pyWs c then
      let run := c :: rest.takeWhile pyWs
      (if 3 ≤ run.count '\n' then
        run.takeWhile (fun d => !(d == '\n')) ++ '\n' :: '\n' ::
          (run.reverse.takeWhile (fun d => !(d == '\n'))).reverse
      else run) ++ squeezeNewlinesF fuel (rest.dropWhile pyWs)
    else c :: squeezeNewlinesF fuel rest

/-- `re.sub(r'\n\s*\n\s*\n+', '\n\n', text)`: inside each maximal whitespace
run holding at least three newlines, the greedy match spans from the first to
the last newline of the run and is replaced by two newlines. -/
def squeezeNewlines (l : List Char) : List Char :=
  squeezeNewlinesF l.length l

/-- A line matching `^\s*\d+\s*$`: optional whitespace, at least one digit,
optional whitespace. -/
def isPageNumLine (l : List Char) : Bool :=
  let t := l.dropWhile pyWs
  let d := t.takeWhile Char.isDigit
  !d.isEmpty && (t.drop d.length).all pyWs

/-- `re.sub(r'^\s*\d+\s*$', '', text, flags=re.MULTILINE)`: blank out every
bare page-number line, keeping the newlines. -/
def stripPageNumLines (s : List Char) : List Char :=
  List.intercalate ['\n']
    ((s.splitOn '\n').map (fun l => if isPageNumLine l then [] else l))

/-- `LargeDocumentProcessor._clean_text`: the three substitutions then
`strip()`. -/
def cleanText (text : List Char) : List Char :=
  pyStrip (stripPageNumLines (squeezeNewlines (collapseWs text)))

/-- Fuel-driven worker for `chunksOf` (`l.length` fuel suffices for `n > 0`). -/
def chunksOfF {α : Type} (n : ℕ) : ℕ → List α → List (List α)
  | _, [] => []
  | 0, _ => []
  | fuel + 1, x :: xs =>
    if n = 0 then []
    else (x :: xs).take n :: chunksOfF n fuel ((x :: xs).drop n)

/-- Consecutive groups of `n` elements (`range(0, total, n)` slicing);
empty for `n = 0`, where Python's `range` raises. -/
def chunksOf {α : Type} (n : ℕ) (l : List α) : List (List α) :=
  chunksOfF n l.length l

/-- `LargeDocumentProcessor._chunk_by_pages`, with the per-page extracted text
supplied as `pages` (PDF reading is an external collaborator): page ranges of
`max_pages_per_chunk` pages, joined with blank lines, cleaned, and kept when
nonblank; `chunk_index` is the running count of kept chunks. -/
def chunkByPages (maxPagesPerChunk : ℕ) (pages : List (List Char)) :
    List PyChunk :=
  ((chunksOf maxPagesPerChunk pages).foldl
    (fun (acc : List PyChunk × ℕ) group =>
      let startPage := acc.2
      let endPage := acc.2 + group.length
      let combined := cleanText (List.intercalate ('\n' :: '\n' :: []) group)
      if pyStrip combined ≠ [] then
        (acc.1 ++ [⟨combined, "page_range",
          toString (startPage + 1) ++ "-" ++ toString endPage,
          acc.1.length, none⟩], endPage)
      else (acc.1, endPage)) ([], 0)).1

/-- `LargeDocumentProcessor._extract_pdf_text` on the per-page texts: pypdfium2
joins pages with a newline and strips; if empty, the pdfplumber path joins the
nonblank pages with blank lines and returns that unconditionally. -/
def extractPdfText (pages : List (List Char)) : List Char :=
  let combined := pyStrip (List.intercalate ['\n'] pages)
  if combined ≠ [] then combined
  else List.intercalate ('\n' :: '\n' :: [])
    (pages.filter (fun p => pyStrip p ≠ []))

/-- `LargeDocumentProcessor._process_small_document`: one `full_document` chunk
covering the whole extracted text, with index 0. -/
def processSmallDocument (pages : List (List Char)) : List PyChunk :=
  [⟨extractPdfText pages, "full_document", "all", 0, none⟩]

/-- `LargeDocumentProcessor.process_large_pdf` with the per-page extracted text
as input: small documents become one `full_document` chunk; otherwise page
chunks are built and any page chunk exceeding `max_chunk_size` is re-split by
`_chunk_by_text`, its pieces spliced into the final list unchanged. -/
def processLargePdf (maxChunkSize overlapSize maxPagesPerChunk minChunkSize : ℕ)
    (pages : List (List Char)) : List PyChunk :=
  let totalPages := pages.length
  if totalPages ≤ maxPagesPerChunk then processSmallDocument pages
  else
    (chunkByPages maxPagesPerChunk pages).foldl
      (fun acc pc =>
        if pc.content.length ≤ maxChunkSize then acc ++ [pc]
        else acc ++ chunkByText maxChunkSize overlapSize minChunkSize
          pc.content pc.pageRange) []

/-! ## Hierarchical reducer (`chunked_summarization.py`)

The reduction collaborator (an AWS Bedrock model invocation) is modelled as a
function `invoke : String → String` from prompt to reply, with `""` standing
for a failed or empty call (the code catches exceptions and returns `""`).
Each model returns the produced text together with the number of collaborator
calls performed. -/

/-- A per-chunk summary record as built by `_summarize_chunk` callers:
`{'chunk_index': i, 'metadata': ..., 'summary': text}`. -/
structure ChunkSummary where
  chunkIndex : ℕ
  chunkType : String
  pageRange : String
  summary : String
deriving DecidableEq

/-- The `[Section i: type - page_range]` header used when combining summaries. -/
def sectionHeader (cs : ChunkSummary) : String :=
  "[Section " ++ toString (cs.chunkIndex + 1) ++ ": " ++ cs.chunkType ++ " - "
    ++ cs.pageRange ++ "]"

/-- The `"\n\n".join(...)` of headed summaries shared by the flat and batch
paths. -/
def combinedSummaries (css : List ChunkSummary) : String :=
  String.intercalate "\n\n" (css.map (fun cs => sectionHeader cs ++ "\n"
    ++ cs.summary))

/-- Truncation of an over-long prompt body to `maxInput` characters plus an
explicit truncation marker. -/
def truncateInput (maxInput : ℕ) (marker : String) (s : String) : String :=
  if maxInput < s.length then s.take maxInput ++ "\n\n" ++ marker else s

/-- `ChunkedSummarizer._create_batch_summary`: one collaborator call over the
batch's combined summaries, truncated to 6000 characters. -/
def createBatchSummary (invoke : String → String) (batch : List ChunkSummary)
    (batchName : String) : String × ℕ :=
  let combined := truncateInput 6000 "[Content truncated]"
    (combinedSummaries batch)
  (invoke ("Create a concise summary of the following document sections ("
    ++ batchName ++ "):\n\n" ++ combined ++ "\n\nSummary:"), 1)

/-- `ChunkedSummarizer._create_final_from_batches`: one collaborator call over
the `[Batch i]`-headed batch summaries, truncated to 8000 characters. -/
def createFinalFromBatches (invoke : String → String)
    (batchSummaries : List String) : String × ℕ :=
  let combined := truncateInput 8000 "[Content truncated]"
    (String.intercalate "\n\n" (batchSummaries.enum.map
      (fun p => "[Batch " ++ toString (p.1 + 1) ++ "]\n" ++ p.2)))
  (invoke ("Create a comprehensive final summary of the entire document based "
    ++ "on these batch summaries:\n\n" ++ combined
    ++ "\n\nFinal Document Summary:"), 1)

/-- `ChunkedSummarizer._create_batched_final_summary`: partition into batches
of 6, one collaborator call per batch, keep the nonempty batch summaries, and
reduce them with one more call when more than one remains. -/
def createBatchedFinalSummary (invoke : String → String)
    (chunkSummaries : List ChunkSummary) : String × ℕ :=
  let batches := chunksOf 6 chunkSummaries
  let batchResults := batches.enum.map
    (fun p => (createBatchSummary invoke p.2
      ("Batch " ++ toString (p.1 + 1))).1)
  let batchSummaries := batchResults.filter (fun s => s ≠ "")
  let calls := batches.length
  if 1 < batchSummaries.length then
    let fin := createFinalFromBatches invoke batchSummaries
    (fin.1, calls + fin.2)
  else if batchSummaries.length = 1 then (batchSummaries.headD "", calls)
  else ("Failed to create summary from batches", calls)

/-- `ChunkedSummarizer._create_final_summary`: more than 8 chunk summaries go
through the batched path; otherwise a single collaborator call over the
combined summaries truncated to 16000 characters. -/
def createFinalSummary (invoke : String → String)
    (chunkSummaries : List ChunkSummary) : String × ℕ :=
  if 8 < chunkSummaries.length then
    createBatchedFinalSummary invoke chunkSummaries
  else
    let combined := truncateInput 16000 "[Content truncated due to size limits]"
      (combinedSummaries chunkSummaries)
    (invoke ("Please create a comprehensive final summary of the entire "
      ++ "document based on the following section summaries.\n\nDocument "
      ++ "Overview:\n- Total Sections: " ++ toString chunkSummaries.length
      ++ "\n\nSection Summaries:\n" ++ combined
      ++ "\n\nFinal Document Summary:"), 1)

/-! ## Task orchestrator (`concurrent_processor.py`)

One summarize unit and one embed unit are submitted per chunk; each future's
outcome is modelled by the collaborator functions `sumFn` (the reply of
`summarizer._summarize_chunk`, `none` for an exception or timeout) and `embFn`
(the reply of `embedding_helper.generate_single_embedding`, `none` for an
exception or timeout).  Results land in position-addressed slots, so thread
completion order is irrelevant and the model is deterministic. -/

/-- The result dict of `process_document_concurrently`. -/
structure ConcurrentResult where
  success : Bool
  summary : Option String
  embeddings : List (Option (List ℚ))
  chunkCount : ℕ
  successfulSummaries : ℕ
  successfulEmbeddings : ℕ

/-- `ConcurrentProcessor._summarize_chunk_wrapper`: a nonempty summary becomes
a summary record, an empty one or an exception becomes `None`. -/
def summarizeChunkWrapper (sumFn : PyChunk → Option String) (chunk : PyChunk)
    (i : ℕ) : Option ChunkSummary :=
  match sumFn chunk with
  | none => none
  | some s => if s ≠ "" then some ⟨i, chunk.chunkType, chunk.pageRange, s⟩
    else none

/-- `ConcurrentProcessor._embed_chunk_wrapper`: empty content yields `None`,
otherwise the embedding collaborator's reply (or `None` on exception). -/
def embedChunkWrapper (embFn : PyChunk → Option (List ℚ)) (chunk : PyChunk) :
    Option (List ℚ) :=
  if chunk.content ≠ [] then embFn chunk else none

/-- The `if result:` truthiness test applied to a completed embedding future:
an empty embedding list is falsy and counts as a failure. -/
def truthyEmbedding : Option (List ℚ) → Option (List ℚ)
  | none => none
  | some v => if v ≠ [] then some v else none

/-- `ConcurrentProcessor.process_document_concurrently`: run both unit kinds
over every chunk, count successes by truthiness, build the final summary from
the successful summaries via the reducer (`invoke` is the reduction
collaborator), and return `success=True` — the failure result is produced only
when the orchestration itself raises, which no unit failure triggers. -/
def processDocumentConcurrently (sumFn : PyChunk → Option String)
    (embFn : PyChunk → Option (List ℚ)) (invoke : String → String)
    (chunks : List PyChunk) : ConcurrentResult :=
  let sumResults := chunks.enum.map
    (fun p => summarizeChunkWrapper sumFn p.2 p.1)
  let embResults := chunks.enum.map
    (fun p => truthyEmbedding (embedChunkWrapper embFn p.2))
  let successfulSummaries := sumResults.filterMap id
  let finalSummary :=
    if successfulSummaries ≠ [] then
      some (createFinalSummary invoke successfulSummaries).1
    else none
  { success := true
    summary := finalSummary
    embeddings := embResults
    chunkCount := chunks.length
    successfulSummaries := (sumResults.filter Option.isSome).length
    successfulEmbeddings := (embResults.filter Option.isSome).length }

/-! ## Hybrid ranker (`embedding_helper.py`)

Embeddings are `List ℚ`; the cosine similarity needs a square root and is
therefore `ℝ`-valued, which makes the score-sorting definitions classical
(noncomputable) — the claims about them are settled propositionally. -/

/-- Python `\w` (ASCII): letters, digits, underscore. -/
def isWordChar (c : Char) : Bool :=
  c.isAlphanum || c == '_'

/-- Fuel-driven worker for `findWords`. -/
def findWordsF : ℕ → List Char → List (List Char)
  | _, [] => []
  | 0, _ => []
  | fuel + 1, c :: rest =>
    if isWordChar c then
      (c :: rest.takeWhile isWordChar) ::
        findWordsF fuel (rest.dropWhile isWordChar)
    else findWordsF fuel rest

/-- `re.findall(r'\b\w+\b', text)`: the maximal runs of word characters. -/
def findWords (l : List Char) : List (List Char) :=
  findWordsF l.length l

/-- The stop-word set of `_preprocess_text`. -/
def stopWords : List (List Char) :=
  ["the", "a", "an", "and", "or", "but", "in", "on", "at", "to", "for", "of",
   "with", "by", "is", "are", "was", "were", "be", "been", "have", "has",
   "had", "do", "does", "did", "will", "would", "could", "should", "may",
   "might", "must", "can"].map String.toList

/-- `TitanEmbeddingHelper._preprocess_text`: lowercase, word tokens, drop stop
words and tokens of length at most 2. -/
def preprocessText (text : List Char) : List (List Char) :=
  (findWords (text.map Char.toLower)).filter
    (fun w => !stopWords.contains w && decide (2 < w.length))

/-- `TitanEmbeddingHelper._calculate_bm25_score` with the default parameters
`k1 = 1.2`, `b = 0.75`: sum over the distinct query terms (with their query
frequency as weight) of the BM25 term contribution for terms present in the
document.  `ℚ` division is total (`x / 0 = 0`), which is only ever exercised
on `avgDocLength = 0`, a case Python cannot reach without raising because a
zero average forces every document's term list to be empty. -/
def calculateBm25Score (queryTerms docTerms : List (List Char))
    (docLength : ℕ) (avgDocLength : ℚ) : ℚ :=
  let k1 : ℚ := 12 / 10
  let b : ℚ := 3 / 4
  (queryTerms.dedup.map (fun term =>
    if docTerms.contains term then
      let docFreq : ℚ := (docTerms.count term : ℚ)
      let numerator := docFreq * (k1 + 1)
      let denominator := docFreq + k1 * (1 - b + b * ((docLength : ℚ)
        / avgDocLength))
      (numerator / denominator) * (queryTerms.count term : ℚ)
    else 0)).sum

/-- A ranking input document: `{document_id, content, embedding}`, with a
missing id as `none` and a missing embedding as `[]` (Python's falsy default). -/
structure SearchDoc where
  documentId : Option String
  content : List Char
  embedding : List ℚ
deriving DecidableEq

/-- `TitanEmbeddingHelper._get_avg_doc_length`. -/
def getAvgDocLength (documents : List SearchDoc) : ℚ :=
  if documents = [] then 0
  else ((documents.map (fun d => ((preprocessText d.content).length : ℚ))).sum)
    / (documents.length : ℚ)

/-- The BM25 score `bm25_search` computes for one document of the corpus. -/
def bm25ScoreOf (query : List Char) (doc : SearchDoc)
    (documents : List SearchDoc) : ℚ :=
  calculateBm25Score (preprocessText query) (preprocessText doc.content)
    (preprocessText doc.content).length (getAvgDocLength documents)

/-- One entry of the `bm25_search` result list. -/
structure BM25Hit where
  document : SearchDoc
  bm25Score : ℚ
deriving DecidableEq

/-- `TitanEmbeddingHelper.bm25_search`: score every document, keep strictly
positive scores, sort descending (Python's stable `list.sort`), take `k`. -/
def bm25Search (query : List Char) (documents : List SearchDoc) (k : ℕ) :
    List BM25Hit :=
  ((documents.filterMap (fun d =>
    let s := bm25ScoreOf query d documents
    if 0 < s then some ⟨d, s⟩ else none)).mergeSort
      (fun x y => decide (y.bm25Score ≤ x.bm25Score))).take k

/-- Dot product of two rational vectors of equal length. -/
def dotProd : List ℚ → List ℚ → ℚ
  | x :: xs, y :: ys => x * y + dotProd xs ys
  | _, _ => 0

/-- Sum of squares of a rational vector (`‖v‖²`). -/
def normSq (v : List ℚ) : ℚ :=
  dotProd v v

open Classical in
/-- `TitanEmbeddingHelper.calculate_similarity`: truncate both vectors to the
shorter length, return `0.0` when either norm is zero, else the cosine. -/
noncomputable def calculateSimilarity (e1 e2 : List ℚ) : ℝ :=
  let n := min e1.length e2.length
  let v1 := e1.take n
  let v2 := e2.take n
  let norm1 : ℝ := Real.sqrt ((normSq v1 : ℚ) : ℝ)
  let norm2 : ℝ := Real.sqrt ((normSq v2 : ℚ) : ℝ)
  if norm1 = 0 ∨ norm2 = 0 then 0
  else ((dotProd v1 v2 : ℚ) : ℝ) / (norm1 * norm2)

/-- One entry of the `vector_search` result list. -/
structure VecHit where
  document : SearchDoc
  vectorScore : ℝ

/-- `TitanEmbeddingHelper.vector_search`: similarity for every document with a
nonempty embedding, sort descending, take `k`. -/
noncomputable def vectorSearch (queryEmbedding : List ℚ)
    (documents : List SearchDoc) (k : ℕ) : List VecHit :=
  ((documents.filterMap (fun d =>
    if d.embedding ≠ [] then
      some ⟨d, calculateSimilarity queryEmbedding d.embedding⟩
    else none)).mergeSort
      (fun x y => decide (y.vectorScore ≤ x.vectorScore))).take k

/-- One entry of the combined hybrid result list. -/
structure HybridHit where
  document : SearchDoc
  bm25Score : ℚ
  vectorScore : ℝ
  hybridScore : ℝ

/-- The `doc.get('document_id', str(i))` key of result `i`. -/
def docKey (d : SearchDoc) (i : ℕ) : String :=
  d.documentId.getD (toString i)

/-- Last-wins association lookup, matching Python dict-comprehension
overwriting. -/
def dictLookup {β : Type} (pairs : List (String × β)) (key : String) :
    Option β :=
  (pairs.reverse.find? (fun p => p.1 == key)).map Prod.snd

/-- `TitanEmbeddingHelper._combine_search_results`: key both result lists by
document id, union the key sets (Python set order is unspecified; the model
fixes first-occurrence order, and every claim settled on it is order
independent), default an absent score to 0, normalize BM25 by `/10` capped at
1, and blend. -/
noncomputable def combineSearchResults (bm25Results : List BM25Hit)
    (vectorResults : List VecHit) (bm25Weight vectorWeight : ℚ) :
    List HybridHit :=
  let bm25Map := bm25Results.enum.map (fun p => (docKey p.2.document p.1, p.2))
  let vectorMap := vectorResults.enum.map
    (fun p => (docKey p.2.document p.1, p.2))
  let allDocIds := (bm25Map.map Prod.fst ++ vectorMap.map Prod.fst).dedup
  allDocIds.filterMap (fun docId =>
    let bmRaw : ℚ := match dictLookup bm25Map docId with
      | some r => r.bm25Score
      | none => 0
    let bm25Score : ℚ := if 0 < bmRaw then min (bmRaw / 10) 1 else 0
    let vectorScore : ℝ := match dictLookup vectorMap docId with
      | some r => r.vectorScore
      | none => 0
    let hybridScore : ℝ := (bm25Weight : ℝ) * (bm25Score : ℝ)
      + (vectorWeight : ℝ) * vectorScore
    let document : Option SearchDoc :=
      match dictLookup bm25Map docId with
      | some r => some r.document
      | none => (dictLookup vectorMap docId).map VecHit.document
    document.map (fun d => ⟨d, bm25Score, vectorScore, hybridScore⟩))

/-- The two shapes `hybrid_search` can return: the BM25-only fallback list or
a combined list. -/
inductive HybridOutcome where
  | bmOnly (hits : List BM25Hit)
  | hybrid (hits : List HybridHit)

/-- `TitanEmbeddingHelper.hybrid_search` with the query embedding supplied (the
`query_embedding is None` branch calls the external embedding collaborator and
is outside this model): BM25 and vector search with budget `k*2`, BM25-only
fallback when the vector side is empty, otherwise combine, sort by hybrid
score descending, take `k`. -/
noncomputable def hybridSearch (query : List Char) (documents : List SearchDoc)
    (queryEmbedding : List ℚ) (bm25Weight vectorWeight : ℚ) (k : ℕ) :
    HybridOutcome :=
  let bm25Results := bm25Search query documents (k * 2)
  let vectorResults :=
    if queryEmbedding ≠ [] ∧ documents.any (fun d => d.embedding ≠ []) then
      vectorSearch queryEmbedding documents (k * 2)
    else []
  match vectorResults with
  | [] => .bmOnly (bm25Results.take k)
  | v :: vs => .hybrid
    (((combineSearchResults bm25Results (v :: vs) bm25Weight
      vectorWeight).mergeSort
        (fun x y => decide (y.hybridScore ≤ x.hybridScore))).take k)

/-! ## Snippet extraction (`chat_handler.py`) -/

/-- Python's substring test `needle in hay`. -/
def strHasSub (needle : List Char) : List Char → Bool
  | [] => needle.isEmpty
  | c :: t => needle.isPrefixOf (c :: t) || strHasSub needle t

/-- The window start positions of `_extract_best_snippet`:
`range(0, len(content) - 200, 50)`. -/
def snippetPositions (contentLen : ℕ) : List ℕ :=
  (List.range ((contentLen - 200 + 49) / 50)).map (fun j => j * 50)

/-- The score of the 400-character window at position `i`:
`sum(1 for word in query_words if word in snippet)` — each entry of the query
word list counts, with multiplicity. -/
def snippetWindowScore (contentLower : List Char) (queryWords : List (List Char))
    (i : ℕ) : ℕ :=
  (queryWords.filter (fun w => strHasSub w ((contentLower.drop i).take 400))).length

/-- The best-position fold of `_extract_best_snippet`: start from
`(-1, 0)` and replace on a strictly greater score. -/
def snippetBest (contentLower : List Char) (queryWords : List (List Char))
    (positions : List ℕ) : ℤ × ℕ :=
  positions.foldl (fun acc i =>
    let m := snippetWindowScore contentLower queryWords i
    if acc.2 < m then ((i : ℤ), m) else acc) (-1, 0)

/-- `ChatHandler._extract_best_snippet`: slide a 400-character window at a
50-character stride, keep the first strictly improving position, expand 100
characters to the left (the right edge stays at `best + 400`), add an ellipsis
on each cut side; when no window scores above 0 (including any content of at
most 200 characters, which yields no window at all), fall back to the first
300 characters. -/
def extractBestSnippet (content : List Char) (queryWords : List (List Char)) :
    List Char :=
  let contentLower := content.map Char.toLower
  let best := snippetBest contentLower queryWords
    (snippetPositions content.length)
  if 0 ≤ best.1 then
    let b := best.1.toNat
    let start := b - 100
    let stop := min content.length (b + 400)
    let snippet := (content.drop start).take (stop - start)
    let withLeft := if 0 < start then '.' :: '.' :: '.' :: snippet else snippet
    if stop < content.length then withLeft ++ ['.', '.', '.'] else withLeft
  else
    if 300 < content.length then content.take 300 ++ ['.', '.', '.']
    else content

/-- The snippet extractor as the specification sentence words it (for
comparison with `extractBestSnippet`): windows of 400 characters at a
50-character stride over the whole content, each scored by the number of
DISTINCT query terms present, the first highest-scoring window selected,
expanded by 100 characters on EACH side, with an ellipsis on each side that
was cut off. -/
def extractBestSnippetSpec (content : List Char)
    (queryWords : List (List Char)) : List Char :=
  let contentLower := content.map Char.toLower
  let positions := (List.range ((content.length + 49) / 50)).map (fun j => j * 50)
  let score := fun i => (queryWords.dedup.filter
    (fun w => strHasSub w ((contentLower.drop i).take 400))).length
  let best := (positions.foldl (fun acc i =>
    if acc.2 < score i then (i, score i) else acc) (0, 0)).1
  let start := best - 100
  let stop := min content.length (best + 400 + 100)
  let snippet := (content.drop start).take (stop - start)
  let withLeft := if 0 < start then '.' :: '.' :: '.' :: snippet else snippet
  if stop < content.length then withLeft ++ ['.', '.', '.'] else withLeft

/-! ## Claim C4: corrupt cache entries -/

/-- Claim C4, counterexample: a cache entry that is unexpired but corrupt does
NOT make `_process_single_file` proceed as if no cache entry existed — with the
corrupt entry it returns the empty chunk list, while without any entry the
same file re-extracts and re-chunks to `["hello"]`. -/
theorem c4_counterexample :
    processSingleFile "hello" (some ⟨0, .corrupt⟩) 0 7 = [] ∧
    processSingleFile "hello" none 0 7 = ["hello"] ∧
    ([] : List String) ≠ ["hello"] := by
  refine ⟨by decide, ?_, by decide⟩
  decide

/-- Claim C4, amended: reading an unexpired corrupt cache entry neither raises
(the model is a total function because `_load_cache` catches the unpickling
error) nor returns corrupt content; but instead of degrading to a miss,
`_process_single_file` returns the empty chunk list produced by `_load_cache`
without re-extracting or re-chunking the file. -/
theorem c4_corrupt_cache_returns_empty (text : String) (t now : ℤ)
    (expireDays : ℕ) (h : now - t < (expireDays : ℤ) * 86400) :
    processSingleFile text (some ⟨t, .corrupt⟩) now expireDays = [] ∧
    loadCache .corrupt = [] := by
  have hv : isCacheValid (some ⟨t, CacheData.corrupt⟩) now expireDays = true := by
    simp only [isCacheValid, decide_eq_true_eq]
    exact h
  constructor
  · simp [processSingleFile, hv, loadCache]
  · rfl

/-- Witness for `c4_corrupt_cache_returns_empty` at a concrete unexpired
corrupt entry. -/
theorem c4_corrupt_cache_returns_empty_witness :
    processSingleFile "hello" (some ⟨0, .corrupt⟩) 3600 7 = [] ∧
    loadCache .corrupt = [] :=
  c4_corrupt_cache_returns_empty "hello" 0 3600 7 (by decide)

/-! ## Claim C7: cache round trip and expiry -/

/-- Claim C7, counterexample: at exactly `expiry_days` after the store
(`now - storedAt = 7 * 86400` seconds, so `now - storedAt ≤ expiry_days`
holds), the claim demands a hit returning the stored chunks, but
`_is_cache_valid`'s strict comparison makes the read a miss. -/
theorem c7_counterexample :
    cacheGet (some (saveCache ["a"] 0)) 604800 7 = none ∧
    (604800 : ℤ) - 0 ≤ (7 : ℤ) * 86400 := by
  constructor
  · decide
  · decide

/-- Claim C7, amended: storing a chunk list (`put`) and reading it back
(`get`) returns an equal chunk sequence whenever `now - storedAt` is STRICTLY
below `expiry_days` (in seconds); once `now - storedAt` is at least
`expiry_days`, the read is a miss.  The boundary instant
`now - storedAt = expiry_days` is a miss, not a hit. -/
theorem c7_cache_roundtrip (chunks : List String) (t now : ℤ) (expireDays : ℕ) :
    (now - t < (expireDays : ℤ) * 86400 →
      cacheGet (some (saveCache chunks t)) now expireDays = some chunks) ∧
    ((expireDays : ℤ) * 86400 ≤ now - t →
      cacheGet (some (saveCache chunks t)) now expireDays = none) := by
  constructor
  · intro h
    unfold cacheGet
    rw [if_pos]
    · rfl
    · simp only [saveCache, isCacheValid, decide_eq_true_eq]
      exact h
  · intro h
    unfold cacheGet
    rw [if_neg]
    simp only [saveCache, isCacheValid, decide_eq_true_eq, not_lt]
    omega

/-- Witness for `c7_cache_roundtrip`: a hit one hour after the store and a miss
eight days after it. -/
theorem c7_cache_roundtrip_witness :
    cacheGet (some (saveCache ["a", "b"] 0)) 3600 7 = some ["a", "b"] ∧
    cacheGet (some (saveCache ["a", "b"] 0)) 691200 7 = none :=
  ⟨(c7_cache_roundtrip ["a", "b"] 0 3600 7).1 (by decide),
   (c7_cache_roundtrip ["a", "b"] 0 691200 7).2 (by decide)⟩

/-! ## Claim C9: zero extractable pages -/

/-- Claim C9, counterexample: with zero pages (`_get_pdf_page_count` returned
0) and the default configuration, `process_large_pdf` does not return an empty
sequence — `0 <= max_pages_per_chunk` routes it through
`_process_small_document`, which returns one `full_document` chunk whose
content is the empty extraction result. -/
theorem c9_counterexample :
    processLargePdf 4000 200 10 500 ([] : List (List Char)) =
      [⟨[], "full_document", "all", 0, none⟩] ∧
    processLargePdf 4000 200 10 500 ([] : List (List Char)) ≠ [] := by
  constructor
  · decide
  · decide

/-- Claim C9, amended: for every parameter setting, a document whose page
count is zero takes the small-document path and yields a SINGLETON chunk list
holding one `full_document` chunk with empty content and index 0 (the empty
sequence is returned only when extraction raises); detecting total failure is
still left to the caller. -/
theorem c9_zero_pages_singleton (maxChunkSize overlapSize maxPagesPerChunk
    minChunkSize : ℕ) :
    processLargePdf maxChunkSize overlapSize maxPagesPerChunk minChunkSize [] =
      [⟨[], "full_document", "all", 0, none⟩] := by
  simp [processLargePdf, processSmallDocument, extractPdfText, pyStrip,
    List.intercalate, Nat.zero_le]

/-! ## Claim C6: density of chunk indices -/

/-- Claim C6, counterexample: two single-page page-range chunks that both
exceed `max_chunk_size = 5` are re-split, each re-split group restarts its
`chunk_index` at 0, and the final emitted list has indices `[0, 0]` — the
chunk at position 1 does not carry `chunk_index = 1`, so the indices are
neither dense nor duplicate-free across the whole list. -/
theorem c6_counterexample :
    (processLargePdf 5 2 1 0 ["abcdef".toList, "ghijkl".toList]).map
      PyChunk.chunkIndex = [0, 0] ∧
    [0, 0] ≠ List.range
      (processLargePdf 5 2 1 0 ["abcdef".toList, "ghijkl".toList]).length := by
  constructor
  · decide
  · decide

theorem chunkFinal_indices (mn : ℕ) (pr : String) (st : ChunkState)
    (h : st.chunks.map PyChunk.chunkIndex = List.range st.idx) :
    (chunkFinal mn pr st).map PyChunk.chunkIndex =
      List.range (chunkFinal mn pr st).length := by
  have hlen : st.chunks.length = st.idx := by
    have h2 := congrArg List.length h
    simpa using h2
  unfold chunkFinal
  by_cases hc : pyStrip st.cur ≠ [] ∧ mn ≤ st.cur.length
  · rw [if_pos hc]
    simp [List.map_append, h, List.length_append, hlen, List.range_succ]
  · rw [if_neg hc, h]
    rw [congrArg List.range hlen.symm]

/-- Claim C6, amended: `chunk_index` is dense in emission order WITHIN each
paragraph re-splitting group — for every parameter setting, the i-th chunk
emitted by `_chunk_by_text` carries `chunk_index = i` — but
`process_large_pdf` never reassigns indices across the final spliced list, so
each re-split group restarts at 0 there (see the counterexample). -/
theorem c6_chunkByText_indices_dense (maxChunkSize overlapSize minChunkSize : ℕ)
    (text : List Char) (pr : String) :
    (chunkByText maxChunkSize overlapSize minChunkSize text pr).map
        PyChunk.chunkIndex =
      List.range (chunkByText maxChunkSize overlapSize minChunkSize
        text pr).length := by
  unfold chunkByText
  apply chunkFinal_indices
  apply chunkFold_indices
  simp

/-! ## Claim C2: reconstruction of the input text -/

/-- Claim C2, counterexample: with `max_chunk_size = 10`, `overlap_size = 0`
(so no overlap prefixes are ever inserted and the claimed stripping is the
identity) and `min_chunk_size = 5`, the input `"abc\n\ndefghijkl"` loses the
paragraph `"abc"`: the buffer holding it is closed while shorter than
`min_chunk_size` and is dropped, not merged forward, so the concatenated chunk
contents do not reconstruct the input even after whitespace normalization. -/
theorem c2_counterexample :
    ((chunkByText 10 0 5 "abc\n\ndefghijkl".toList "r").map
      PyChunk.content).flatten = "defghijkl".toList ∧
    removeWs (((chunkByText 10 0 5 "abc\n\ndefghijkl".toList "r").map
      PyChunk.content).flatten) ≠ removeWs "abc\n\ndefghijkl".toList ∧
    ((chunkByTextAug 10 0 5 "abc\n\ndefghijkl".toList "r").map
      seedStripped).flatten ≠ removeWs "abc\n\ndefghijkl".toList := by
  refine ⟨by decide, by decide, by decide⟩

/-- Claim C2, amended: the reconstruction holds when `min_chunk_size = 0` (no
buffer can then be dropped): for every `max_chunk_size`, `overlap_size` and
input text, pairing each `_chunk_by_text` chunk with its inserted overlap seed
(`chunkByTextAug`, whose first components are exactly the `_chunk_by_text`
output) and concatenating the chunk contents after stripping each seed
reconstructs the input text up to whitespace normalization.  With
`min_chunk_size > 0` text can be lost (see the counterexample). -/
theorem c2_reconstruction_min_zero (maxChunkSize overlapSize : ℕ)
    (text : List Char) (pr : String) :
    (chunkByTextAug maxChunkSize overlapSize 0 text pr).map Prod.fst =
      chunkByText maxChunkSize overlapSize 0 text pr ∧
    ((chunkByTextAug maxChunkSize overlapSize 0 text pr).map
      seedStripped).flatten = removeWs text := by
  constructor
  · exact chunkByTextAug_fst maxChunkSize overlapSize 0 text pr
  · have h0 : augInv ⟨[], [], [], 0⟩ [] := by
      refine ⟨rfl, le_refl _, fun _ => rfl⟩
    have h1 := augInv_foldl maxChunkSize overlapSize pr (splitParas text)
      ⟨[], [], [], 0⟩ [] h0
    rw [List.nil_append] at h1
    have h2 := augInv_final pr _ _ h1
    unfold chunkByTextAug
    rw [h2, removeWs_flatten_splitParas]

/-! ## Claim C1: batch success flag of the orchestrator -/

/-- Claim C1, counterexample: one chunk whose summarize unit and embed unit
both fail (both collaborators raise), so every unit of both kinds failed, yet
the orchestrator's result still reports `success = true` — the claimed
`success = false` on total failure never happens. -/
theorem c1_counterexample :
    (processDocumentConcurrently (fun _ => none) (fun _ => none) (fun _ => "ok")
      [⟨"x".toList, "page_range", "1-1", 0, none⟩]).chunkCount = 1 ∧
    (processDocumentConcurrently (fun _ => none) (fun _ => none) (fun _ => "ok")
      [⟨"x".toList, "page_range", "1-1", 0, none⟩]).successfulSummaries = 0 ∧
    (processDocumentConcurrently (fun _ => none) (fun _ => none) (fun _ => "ok")
      [⟨"x".toList, "page_range", "1-1", 0, none⟩]).successfulEmbeddings = 0 ∧
    (processDocumentConcurrently (fun _ => none) (fun _ => none) (fun _ => "ok")
      [⟨"x".toList, "page_range", "1-1", 0, none⟩]).success = true := by
  refine ⟨rfl, rfl, rfl, rfl⟩

theorem filterMap_id_eq_nil_of_no_some {α : Type} (l : List (Option α))
    (h : (l.filter Option.isSome).length = 0) : l.filterMap id = [] := by
  rw [List.length_eq_zero] at h
  rw [List.filterMap_eq_nil_iff]
  intro a ha
  have h2 := List.filter_eq_nil_iff.mp h a ha
  simpa using h2

/-- Claim C1, amended: whenever the orchestration itself completes (no
exception outside the unit wrappers, which unit failures never cause), the
returned result reports `success = true` for every chunk list and every
combination of collaborator outcomes — even when every summarize unit and
every embed unit failed.  Unit failures only lower the success counters, and
when every summarize unit failed the final summary is `None`. -/
theorem c1_success_always_true (sumFn : PyChunk → Option String)
    (embFn : PyChunk → Option (List ℚ)) (invoke : String → String)
    (chunks : List PyChunk) :
    (processDocumentConcurrently sumFn embFn invoke chunks).success = true ∧
    ((processDocumentConcurrently sumFn embFn invoke chunks).successfulSummaries
        = 0 →
      (processDocumentConcurrently sumFn embFn invoke chunks).summary = none) := by
  constructor
  · rfl
  · intro h
    have hnil : (chunks.enum.map
        (fun p => summarizeChunkWrapper sumFn p.2 p.1)).filterMap id = [] :=
      filterMap_id_eq_nil_of_no_some _ h
    simp only [processDocumentConcurrently] at h ⊢
    rw [hnil]
    simp

/-- Witness for `c1_success_always_true`: a concrete run in which every unit
fails. -/
theorem c1_success_always_true_witness :
    (processDocumentConcurrently (fun _ => none) (fun _ => none)
      (fun _ => "ok") [⟨"x".toList, "page_range", "1-1", 0, none⟩]).success
        = true ∧
    ((processDocumentConcurrently (fun _ => none) (fun _ => none)
      (fun _ => "ok") [⟨"x".toList, "page_range", "1-1", 0, none⟩]
        ).successfulSummaries = 0 →
      (processDocumentConcurrently (fun _ => none) (fun _ => none)
        (fun _ => "ok") [⟨"x".toList, "page_range", "1-1", 0, none⟩]).summary
          = none) :=
  c1_success_always_true (fun _ => none) (fun _ => none) (fun _ => "ok")
    [⟨"x".toList, "page_range", "1-1", 0, none⟩]

/-! ## Claim C3: batched reduction call count -/

theorem chunksOfF_length {α : Type} (n : ℕ) (hn : n ≠ 0) :
    ∀ (fuel : ℕ) (l : List α), l.length ≤ fuel →
      (chunksOfF n fuel l).length = (l.length + n - 1) / n := by
  intro fuel
  induction fuel with
  | zero =>
    intro l h
    have hl : l = [] := List.eq_nil_of_length_eq_zero (Nat.le_zero.mp h)
    subst hl
    simp only [chunksOfF, List.length_nil]
    symm
    exact Nat.div_eq_of_lt (by omega)
  | succ f ih =>
    intro l h
    match l with
    | [] =>
      simp only [chunksOfF, List.length_nil]
      symm
      exact Nat.div_eq_of_lt (by omega)
    | x :: xs =>
      simp only [chunksOfF, if_neg hn, List.length_cons]
      have hd : (List.drop n (x :: xs)).length = (x :: xs).length - n :=
        List.length_drop n (x :: xs)
      have hrec := ih (List.drop n (x :: xs)) (by
        rw [hd]
        simp only [List.length_cons] at h ⊢
        omega)
      rw [hrec, hd]
      set L := (x :: xs).length with hL
      have hL1 : 1 ≤ L := by simp [hL]
      have e : L + n - 1 = (L - 1) + n := by omega
      rcases le_or_lt n L with hnl | hnl
      · have e2 : L - n + n - 1 = L - 1 := by omega
        rw [e2]
        show (L - 1) / n + 1 = (L + n - 1) / n
        rw [e, Nat.add_div_right _ (Nat.pos_of_ne_zero hn)]
      · have h0 : L - n = 0 := by omega
        rw [h0]
        have e0 : (0 + n - 1) / n = 0 := Nat.div_eq_of_lt (by omega)
        rw [e0]
        show 0 + 1 = (L + n - 1) / n
        rw [e, Nat.add_div_right _ (Nat.pos_of_ne_zero hn),
          Nat.div_eq_of_lt (by omega)]

theorem chunksOf_length {α : Type} (n : ℕ) (hn : n ≠ 0) (l : List α) :
    (chunksOf n l).length = (l.length + n - 1) / n :=
  chunksOfF_length n hn l.length l (le_refl _)

/-- Claim C3, confirmed: with 20 chunk summaries (over the batch threshold of
8) and a reduction collaborator whose every call succeeds (returns nonempty
text), `_create_final_summary` takes the batched path and performs exactly
`ceil(20/6) + 1 = 5` collaborator calls: 4 batch-summary calls and 1 final
call over the batch summaries. -/
theorem c3_twenty_summaries_five_calls (invoke : String → String)
    (css : List ChunkSummary) (hinv : ∀ p, invoke p ≠ "")
    (hlen : css.length = 20) :
    (createFinalSummary invoke css).2 = 5 := by
  unfold createFinalSummary
  rw [if_pos (by omega : 8 < css.length)]
  unfold createBatchedFinalSummary
  have hb : (chunksOf 6 css).length = 4 := by
    rw [chunksOf_length 6 (by omega) css, hlen]
  have hfilter : ((chunksOf 6 css).enum.map (fun p =>
      (createBatchSummary invoke p.2 ("Batch " ++ toString (p.1 + 1))).1)).filter
        (fun s => s ≠ "") =
      (chunksOf 6 css).enum.map (fun p =>
        (createBatchSummary invoke p.2 ("Batch " ++ toString (p.1 + 1))).1) := by
    rw [List.filter_eq_self]
    intro a ha
    simp only [List.mem_map] at ha
    obtain ⟨p, -, rfl⟩ := ha
    simpa using hinv _
  simp only [hfilter, List.length_map, List.enum_length, hb]
  rw [if_pos (by omega : (1:ℕ) < 4)]
  rfl

/-- Witness for `c3_twenty_summaries_five_calls` at a concrete collaborator
and 20 concrete summaries. -/
theorem c3_twenty_summaries_five_calls_witness :
    (createFinalSummary (fun _ => "ok")
      (List.replicate 20 (⟨0, "t", "r", "s"⟩ : ChunkSummary))).2 = 5 :=
  c3_twenty_summaries_five_calls (fun _ => "ok") _
    (fun p => by simp) (by simp)

/-! ## Claim C10: totality of cosine similarity -/

theorem normSq_cons (x : ℚ) (xs : List ℚ) :
    normSq (x :: xs) = x * x + normSq xs := rfl

theorem normSq_nonneg (v : List ℚ) : 0 ≤ normSq v := by
  induction v with
  | nil => exact le_refl 0
  | cons x xs ih =>
    rw [normSq_cons]
    exact add_nonneg (mul_self_nonneg x) ih

theorem sqrt_normSq_eq_zero_iff (v : List ℚ) :
    Real.sqrt ((normSq v : ℚ) : ℝ) = 0 ↔ normSq v = 0 := by
  rw [Real.sqrt_eq_zero']
  constructor
  · intro h
    have h1 : normSq v ≤ 0 := by exact_mod_cast h
    exact le_antisymm h1 (normSq_nonneg v)
  · intro h
    rw [h]
    simp

/-- Claim C10, confirmed: `calculate_similarity` is total on every pair of
vectors.  Vectors of mismatched length are truncated to the shorter length
(the function equals its value at the truncations); whenever either truncated
vector has zero norm — including empty vectors — it returns 0 without
dividing; and in the remaining case the denominator `norm1 * norm2` is
provably nonzero, so the division is the genuine cosine. -/
theorem c10_calculate_similarity_total (e1 e2 : List ℚ) :
    calculateSimilarity e1 e2 =
      calculateSimilarity (e1.take (min e1.length e2.length))
        (e2.take (min e1.length e2.length)) ∧
    (normSq (e1.take (min e1.length e2.length)) = 0 ∨
        normSq (e2.take (min e1.length e2.length)) = 0 →
      calculateSimilarity e1 e2 = 0) ∧
    (normSq (e1.take (min e1.length e2.length)) ≠ 0 →
      normSq (e2.take (min e1.length e2.length)) ≠ 0 →
      Real.sqrt ((normSq (e1.take (min e1.length e2.length)) : ℚ) : ℝ) *
          Real.sqrt ((normSq (e2.take (min e1.length e2.length)) : ℚ) : ℝ) ≠ 0 ∧
      calculateSimilarity e1 e2 =
        ((dotProd (e1.take (min e1.length e2.length))
            (e2.take (min e1.length e2.length)) : ℚ) : ℝ) /
          (Real.sqrt ((normSq (e1.take (min e1.length e2.length)) : ℚ) : ℝ) *
            Real.sqrt ((normSq (e2.take (min e1.length e2.length)) : ℚ) : ℝ))) := by
  set m := min e1.length e2.length with hm0
  have hl1 : (e1.take m).length = m := by
    rw [List.length_take]
    exact Nat.min_eq_left (Nat.min_le_left _ _)
  have hl2 : (e2.take m).length = m := by
    rw [List.length_take]
    exact Nat.min_eq_left (Nat.min_le_right _ _)
  have hmin : min (e1.take m).length (e2.take m).length = m := by
    rw [hl1, hl2, Nat.min_self]
  have htake1 : (e1.take m).take (min (e1.take m).length (e2.take m).length) =
      e1.take m := by
    apply List.take_of_length_le
    rw [hmin, hl1]
  have htake2 : (e2.take m).take (min (e1.take m).length (e2.take m).length) =
      e2.take m := by
    apply List.take_of_length_le
    rw [hmin, hl2]
  refine ⟨?_, ?_, ?_⟩
  · conv_rhs => rw [calculateSimilarity]
    rw [htake1, htake2]
    rfl
  · intro h
    rw [calculateSimilarity]
    rw [if_pos]
    rcases h with h | h
    · exact Or.inl ((sqrt_normSq_eq_zero_iff _).mpr h)
    · exact Or.inr ((sqrt_normSq_eq_zero_iff _).mpr h)
  · intro h1 h2
    have hs1 : Real.sqrt ((normSq (e1.take m) : ℚ) : ℝ) ≠ 0 :=
      fun hc => h1 ((sqrt_normSq_eq_zero_iff _).mp hc)
    have hs2 : Real.sqrt ((normSq (e2.take m) : ℚ) : ℝ) ≠ 0 :=
      fun hc => h2 ((sqrt_normSq_eq_zero_iff _).mp hc)
    refine ⟨mul_ne_zero hs1 hs2, ?_⟩
    rw [calculateSimilarity]
    rw [if_neg]
    push_neg
    exact ⟨hs1, hs2⟩

/-- Witness for `c10_calculate_similarity_total`: mismatched lengths whose
truncation is the zero vector (so the zero-norm branch fires), and a nonzero
pair exercising the nonzero-denominator branch. -/
theorem c10_calculate_similarity_total_witness :
    calculateSimilarity [0, 3] [0] = 0 ∧
    Real.sqrt ((normSq (List.take (min ([1] : List ℚ).length
        ([2] : List ℚ).length) [1]) : ℚ) : ℝ) *
      Real.sqrt ((normSq (List.take (min ([1] : List ℚ).length
        ([2] : List ℚ).length) [2]) : ℚ) : ℝ) ≠ 0 :=
  ⟨(c10_calculate_similarity_total [0, 3] [0]).2.1
    (by norm_num [normSq, dotProd]),
   ((c10_calculate_similarity_total [1] [2]).2.2
    (by norm_num [normSq, dotProd]) (by norm_num [normSq, dotProd])).1⟩

/-! ## Claim C5: pure-vector ordering when BM25 finds nothing -/

theorem calculateBm25Score_of_disjoint (qt dt : List (List Char)) (L : ℕ)
    (avg : ℚ) (h : ∀ t ∈ qt.dedup, dt.contains t = false) :
    calculateBm25Score qt dt L avg = 0 := by
  unfold calculateBm25Score
  apply List.sum_eq_zero
  intro x hx
  simp only [List.mem_map] at hx
  obtain ⟨t, ht, rfl⟩ := hx
  rw [if_neg]
  simpa using h t ht

theorem bm25Search_eq_nil (query : List Char) (docs : List SearchDoc) (n : ℕ)
    (h : ∀ d ∈ docs, bm25ScoreOf query d docs = 0) :
    bm25Search query docs n = [] := by
  unfold bm25Search
  have hfm : docs.filterMap (fun d =>
      let s := bm25ScoreOf query d docs
      if 0 < s then some (⟨d, s⟩ : BM25Hit) else none) = [] := by
    rw [List.filterMap_eq_nil_iff]
    intro d hd
    simp only
    rw [if_neg]
    rw [h d hd]
    exact lt_irrefl 0
  rw [hfm, List.mergeSort_nil, List.take_nil]

theorem vectorSearch_ne_nil (qe : List ℚ) (docs : List SearchDoc) (n : ℕ)
    (hd : docs ≠ []) (hn : n ≠ 0) (hemb : ∀ d ∈ docs, d.embedding ≠ []) :
    vectorSearch qe docs n ≠ [] := by
  unfold vectorSearch
  match hdocs : docs with
  | [] => exact absurd rfl hd
  | d :: rest =>
    have hfm : (d :: rest).filterMap (fun d =>
        if d.embedding ≠ [] then
          some (⟨d, calculateSimilarity qe d.embedding⟩ : VecHit)
        else none) =
        ⟨d, calculateSimilarity qe d.embedding⟩ :: rest.filterMap (fun d =>
          if d.embedding ≠ [] then
            some (⟨d, calculateSimilarity qe d.embedding⟩ : VecHit)
          else none) := by
      rw [List.filterMap_cons]
      rw [if_pos (hemb d (by simp))]
    rw [hfm]
    intro hcontra
    have hlen := congrArg List.length hcontra
    rw [List.length_take, (List.mergeSort_perm _ _).length_eq] at hlen
    simp only [List.length_cons, List.length_nil] at hlen
    omega

theorem combineSearchResults_no_bm25 (vec : List VecHit) (w1 w2 : ℚ)
    (h : HybridHit) (hmem : h ∈ combineSearchResults [] vec w1 w2) :
    h.bm25Score = 0 ∧ h.hybridScore = (w2 : ℝ) * h.vectorScore := by
  unfold combineSearchResults at hmem
  simp only [List.mem_filterMap] at hmem
  obtain ⟨docId, -, hsome⟩ := hmem
  simp only [List.enum_nil, List.map_nil] at hsome
  match hlook : dictLookup ((vec.enum.map (fun p =>
      (docKey p.2.document p.1, p.2)))) docId with
  | some r =>
    rw [hlook] at hsome
    simp only [dictLookup, List.reverse_nil, List.find?_nil, Option.map_none] at hsome
    injection hsome with hsome
    rw [← hsome]
    constructor
    · simp
    · simp
  | none =>
    rw [hlook] at hsome
    simp only [dictLookup, List.reverse_nil, List.find?_nil, Option.map_none] at hsome
    cases hsome

/-- Claim C5, confirmed: when every document carries a (nonempty) embedding
but the query's BM25 score is zero on every document, `hybrid_search` with
`bm25_weight = vector_weight = 1/2` takes the combined path and the returned
hits are ordered purely by descending vector score: every hit's BM25 term
defaults to 0 (the document is absent from the empty BM25 candidate set) and
its hybrid score is exactly `1/2 * vector_score`, so the descending hybrid
order is the descending vector order. -/
theorem c5_hybrid_pure_vector_order (query : List Char)
    (docs : List SearchDoc) (qe : List ℚ) (k : ℕ)
    (hq : qe ≠ []) (hd : docs ≠ []) (hk : 0 < k)
    (hemb : ∀ d ∈ docs, d.embedding ≠ [])
    (hbm : ∀ d ∈ docs, bm25ScoreOf query d docs = 0) :
    ∃ hits, hybridSearch query docs qe (1/2) (1/2) k = .hybrid hits ∧
      hits.Pairwise (fun a b => b.vectorScore ≤ a.vectorScore) ∧
      ∀ h ∈ hits, h.bm25Score = 0 ∧
        h.hybridScore = (1/2 : ℝ) * h.vectorScore := by
  have hbmnil := bm25Search_eq_nil query docs (k * 2) hbm
  have hvec : vectorSearch qe docs (k * 2) ≠ [] :=
    vectorSearch_ne_nil qe docs (k * 2) hd (by omega) hemb
  obtain ⟨v, vs, hv⟩ := List.exists_cons_of_ne_nil hvec
  have hcond : (qe ≠ [] ∧ docs.any (fun d => d.embedding ≠ []) = true) := by
    refine ⟨hq, ?_⟩
    rw [List.any_eq_true]
    obtain ⟨d, rest, hdocs⟩ := List.exists_cons_of_ne_nil hd
    exact ⟨d, by rw [hdocs]; simp, by
      simpa using hemb d (by rw [hdocs]; simp)⟩
  unfold hybridSearch
  rw [hbmnil, if_pos hcond, hv]
  refine ⟨_, rfl, ?_, ?_⟩
  · -- sortedness by vector score via sortedness by hybrid score
    have hsorted := @List.sorted_mergeSort HybridHit
      (fun x y => decide (y.hybridScore ≤ x.hybridScore))
      (fun a b c hab hbc => by
        simp only [decide_eq_true_eq] at *
        exact le_trans hbc hab)
      (fun a b => by
        rcases le_total a.hybridScore b.hybridScore with h | h <;>
          simp [h])
      (combineSearchResults [] (v :: vs) (1/2) (1/2))
    have hpair : (((combineSearchResults [] (v :: vs) (1/2) (1/2)).mergeSort
        (fun x y => decide (y.hybridScore ≤ x.hybridScore))).take k).Pairwise
        (fun a b => decide (b.hybridScore ≤ a.hybridScore) = true) :=
      List.Pairwise.sublist (List.take_sublist k _) hsorted
    refine hpair.imp_of_mem ?_
    intro a b ha hb hab
    have hamem : a ∈ combineSearchResults [] (v :: vs) (1/2) (1/2) :=
      List.mem_mergeSort.mp (List.mem_of_mem_take ha)
    have hbmem : b ∈ combineSearchResults [] (v :: vs) (1/2) (1/2) :=
      List.mem_mergeSort.mp (List.mem_of_mem_take hb)
    obtain ⟨-, hha⟩ := combineSearchResults_no_bm25 (v :: vs) (1/2) (1/2) a hamem
    obtain ⟨-, hhb⟩ := combineSearchResults_no_bm25 (v :: vs) (1/2) (1/2) b hbmem
    simp only [decide_eq_true_eq] at hab
    rw [hha, hhb] at hab
    have hw : (0 : ℝ) < ((1/2 : ℚ) : ℝ) := by norm_num
    exact le_of_mul_le_mul_left hab hw
  · intro h hmem
    have hmem2 : h ∈ combineSearchResults [] (v :: vs) (1/2) (1/2) :=
      List.mem_mergeSort.mp (List.mem_of_mem_take hmem)
    obtain ⟨h1, h2⟩ := combineSearchResults_no_bm25 (v :: vs) (1/2) (1/2) h hmem2
    refine ⟨h1, ?_⟩
    rw [h2]
    norm_num

/-- Witness for `c5_hybrid_pure_vector_order`: a one-document corpus with an
embedding and a query (`"xyz"`) sharing no keyword with the document. -/
theorem c5_hybrid_pure_vector_order_witness :
    ∃ hits, hybridSearch "xyz".toList
        [⟨some "d1", "alpha beta".toList, [1]⟩] [1] (1/2) (1/2) 1 =
        .hybrid hits ∧
      hits.Pairwise (fun a b => b.vectorScore ≤ a.vectorScore) ∧
      ∀ h ∈ hits, h.bm25Score = 0 ∧
        h.hybridScore = (1/2 : ℝ) * h.vectorScore :=
  c5_hybrid_pure_vector_order "xyz".toList
    [⟨some "d1", "alpha beta".toList, [1]⟩] [1] 1 (by decide) (by decide)
    (by decide)
    (by
      intro d hd
      rw [List.mem_singleton] at hd
      subst hd
      decide)
    (by
      intro d hd
      rw [List.mem_singleton] at hd
      subst hd
      exact calculateBm25Score_of_disjoint _ _ _ _ (by decide))

/-! ## Claim C8: snippet extraction -/

theorem base_le_foldr_max (l : List ℕ) (b : ℕ) : b ≤ l.foldr max b := by
  induction l with
  | nil => exact le_refl b
  | cons x t ih => exact le_trans ih (le_max_right x _)

theorem mem_le_foldr_max (l : List ℕ) (b : ℕ) (x : ℕ) (hx : x ∈ l) :
    x ≤ l.foldr max b := by
  induction l with
  | nil => cases hx
  | cons y t ih =>
    rcases List.mem_cons.mp hx with h | h
    · subst h
      exact le_max_left x _
    · exact le_trans (ih h) (le_max_right y _)

theorem foldr_max_base_mono (l : List ℕ) (a b : ℕ) (h : b ≤ a) :
    l.foldr max a = max a (l.foldr max b) := by
  induction l with
  | nil => simp [Nat.max_eq_left h]
  | cons x t ih =>
    simp only [List.foldr_cons, ih]
    rw [max_left_comm]

/-- The strict-improvement fold of `_extract_best_snippet` computes the running
maximum, keeps the initial state when nothing improves on it, and otherwise
lands on the FIRST position whose score attains the maximum. -/
theorem foldArgmax (score : ℕ → ℕ) :
    ∀ (l : List ℕ) (p0 : ℤ) (s0 : ℕ),
      (l.foldl (fun acc i => if acc.2 < score i then ((i : ℤ), score i)
          else acc) (p0, s0)).2 = (l.map score).foldr max s0 ∧
      ((l.map score).foldr max s0 = s0 →
        l.foldl (fun acc i => if acc.2 < score i then ((i : ℤ), score i)
          else acc) (p0, s0) = (p0, s0)) ∧
      (s0 < (l.map score).foldr max s0 →
        ∃ j, l.find? (fun i =>
            decide ((l.map score).foldr max s0 ≤ score i)) = some j ∧
          (l.foldl (fun acc i => if acc.2 < score i then ((i : ℤ), score i)
            else acc) (p0, s0)).1 = (j : ℤ)) := by
  intro l
  induction l with
  | nil =>
    intro p0 s0
    refine ⟨rfl, fun _ => rfl, fun h => absurd h (lt_irrefl s0)⟩
  | cons i t ih =>
    intro p0 s0
    simp only [List.foldl_cons, List.map_cons, List.foldr_cons, List.find?]
    by_cases hlt : s0 < score i
    · rw [if_pos hlt]
      obtain ⟨iha, ihb, ihc⟩ := ih (i : ℤ) (score i)
      have hbase : (t.map score).foldr max (score i) =
          max (score i) ((t.map score).foldr max s0) :=
        foldr_max_base_mono (t.map score) (score i) s0 (le_of_lt hlt)
      refine ⟨by rw [iha, hbase], ?_, ?_⟩
      · intro h
        exfalso
        have h2 : score i ≤ max (score i) ((t.map score).foldr max s0) :=
          le_max_left _ _
        omega
      · intro hM
        by_cases hA : (t.map score).foldr max s0 ≤ score i
        · have hMi : max (score i) ((t.map score).foldr max s0) = score i :=
            Nat.max_eq_left hA
          have hpred : decide (score i ≤ score i) = true := by simp
          simp only [hMi, hpred]
          refine ⟨i, rfl, ?_⟩
          have hstat : (t.map score).foldr max (score i) = score i := by
            rw [hbase, hMi]
          rw [ihb hstat]
        · push_neg at hA
          have hMi : max (score i) ((t.map score).foldr max s0) =
              (t.map score).foldr max s0 := Nat.max_eq_right (le_of_lt hA)
          have hpred : decide ((t.map score).foldr max s0 ≤ score i) = false := by
            simp only [decide_eq_false_iff_not, not_le]
            exact hA
          simp only [hMi, hpred]
          have hc2 : score i < (t.map score).foldr max (score i) := by
            rw [hbase, hMi]
            exact hA
          obtain ⟨j, hj1, hj2⟩ := ihc hc2
          refine ⟨j, ?_, hj2⟩
          rw [← hj1]
          congr 1
          funext x
          rw [hbase, hMi]
    · rw [if_neg hlt]
      push_neg at hlt
      obtain ⟨iha, ihb, ihc⟩ := ih p0 s0
      have hs0 : s0 ≤ (t.map score).foldr max s0 := base_le_foldr_max _ _
      have hMi : max (score i) ((t.map score).foldr max s0) =
          (t.map score).foldr max s0 := Nat.max_eq_right (le_trans hlt hs0)
      simp only [hMi]
      refine ⟨iha, ihb, ?_⟩
      intro hM
      have hpred : decide ((t.map score).foldr max s0 ≤ score i) = false := by
        simp only [decide_eq_false_iff_not, not_le]
        omega
      simp only [hpred]
      exact ihc hM

/-- Input for the C8 counterexample: 450 characters with the only query-word
occurrence at offset 10, so the best window starts at 0 and the right edge is
cut. -/
def snippetCounterContent : List Char :=
  List.replicate 10 'a' ++ ('z' :: 'z' :: 'z' :: []) ++ List.replicate 437 'b'

set_option maxRecDepth 100000 in
/-- Claim C8, counterexample: on a 450-character content whose only query-word
occurrence sits at offset 10, the code selects window position 0 and returns
`content[0:400] ++ "..."` (no right-side expansion), while the claim's
description — expansion by 100 characters on EACH side — would return the
whole content with no ellipsis; the two disagree. -/
theorem c8_counterexample :
    extractBestSnippet snippetCounterContent [['z', 'z', 'z']] ≠
      extractBestSnippetSpec snippetCounterContent [['z', 'z', 'z']] ∧
    (extractBestSnippet snippetCounterContent [['z', 'z', 'z']]).length = 403 ∧
    (extractBestSnippetSpec snippetCounterContent [['z', 'z', 'z']]).length
      = 450 := by
  refine ⟨by decide, by decide, by decide⟩

/-- Claim C8, amended: the window slide stops at `len(content) - 200` (no
window at all when the content has at most 200 characters), each window is
scored by the number of query-word LIST ENTRIES it contains (duplicates count
twice, not "distinct terms"), and when some window scores above 0 the code
picks the FIRST window attaining the maximal score, expands it by 100
characters on the LEFT only (the right edge stays at `best + 400`, capped at
the content length), and marks an ellipsis on exactly each side that was cut;
when no window scores above 0 it falls back to the first 300 characters. -/
theorem c8_snippet_first_argmax (content : List Char)
    (queryWords : List (List Char))
    (h : ∃ i ∈ snippetPositions content.length,
      0 < snippetWindowScore (content.map Char.toLower) queryWords i) :
    ∃ b, (snippetPositions content.length).find? (fun i =>
        decide (((snippetPositions content.length).map
          (snippetWindowScore (content.map Char.toLower) queryWords)).foldr
            max 0 ≤ snippetWindowScore (content.map Char.toLower)
              queryWords i)) = some b ∧
      snippetWindowScore (content.map Char.toLower) queryWords b =
        ((snippetPositions content.length).map
          (snippetWindowScore (content.map Char.toLower) queryWords)).foldr
            max 0 ∧
      extractBestSnippet content queryWords =
        (let start := b - 100
         let stop := min content.length (b + 400)
         let snippet := (content.drop start).take (stop - start)
         let withLeft := if 0 < start then '.' :: '.' :: '.' :: snippet
           else snippet
         if stop < content.length then withLeft ++ ['.', '.', '.']
         else withLeft) := by
  obtain ⟨i0, hi0, hpos⟩ := h
  have hMpos : 0 < ((snippetPositions content.length).map
      (snippetWindowScore (content.map Char.toLower) queryWords)).foldr max 0 :=
    lt_of_lt_of_le hpos (mem_le_foldr_max _ 0 _ (List.mem_map_of_mem _ hi0))
  obtain ⟨ha, -, hc⟩ := foldArgmax
    (snippetWindowScore (content.map Char.toLower) queryWords)
    (snippetPositions content.length) (-1) 0
  obtain ⟨j, hj1, hj2⟩ := hc hMpos
  refine ⟨j, hj1, ?_, ?_⟩
  · have hup : snippetWindowScore (content.map Char.toLower) queryWords j ≤
        ((snippetPositions content.length).map
          (snippetWindowScore (content.map Char.toLower) queryWords)).foldr
            max 0 :=
      mem_le_foldr_max _ 0 _
        (List.mem_map_of_mem _ (List.mem_of_find?_eq_some hj1))
    have hdown := List.find?_some hj1
    simp only [decide_eq_true_eq] at hdown
    exact le_antisymm hup hdown
  · have hbest1 : (snippetBest (content.map Char.toLower) queryWords
        (snippetPositions content.length)).1 = (j : ℤ) := hj2
    simp only [extractBestSnippet, hbest1]
    rw [if_pos (by positivity : (0:ℤ) ≤ (j : ℤ))]
    rw [Int.toNat_natCast]

/-- Input for the C8 witness: 201 characters beginning with the query word. -/
def snippetWitnessContent : List Char :=
  "abc".toList ++ List.replicate 198 'x'

set_option maxRecDepth 100000 in
/-- Witness for `c8_snippet_first_argmax` on a concrete content with one
window whose score is positive. -/
theorem c8_snippet_first_argmax_witness :
    ∃ b, (snippetPositions snippetWitnessContent.length).find? (fun i =>
        decide (((snippetPositions snippetWitnessContent.length).map
          (snippetWindowScore (snippetWitnessContent.map Char.toLower)
            [['a', 'b', 'c']])).foldr max 0 ≤
          snippetWindowScore (snippetWitnessContent.map Char.toLower)
            [['a', 'b', 'c']] i)) = some b ∧
      snippetWindowScore (snippetWitnessContent.map Char.toLower)
        [['a', 'b', 'c']] b =
        ((snippetPositions snippetWitnessContent.length).map
          (snippetWindowScore (snippetWitnessContent.map Char.toLower)
            [['a', 'b', 'c']])).foldr max 0 ∧
      extractBestSnippet snippetWitnessContent [['a', 'b', 'c']] =
        (let start := b - 100
         let stop := min snippetWitnessContent.length (b + 400)
         let snippet := (snippetWitnessContent.drop start).take (stop - start)
         let withLeft := if 0 < start then '.' :: '.' :: '.' :: snippet
           else snippet
         if stop < snippetWitnessContent.length then withLeft ++ ['.', '.', '.']
         else withLeft) :=
  c8_snippet_first_argmax snippetWitnessContent [['a', 'b', 'c']] (by decide)
